import Mathlib

/-
Verification of the risc0-smt sparse Merkle tree engine.

This file shallowly embeds the Rust source (src/lib.rs, src/leaf.rs) into
Lean 4.  The tree is generic over the hash primitive, mirroring the
`H: Sha256` type parameter of the source: a `Hasher D` provides the
pair-hash, the word-sequence hash and the zero digest sentinel.  Machine
maps (`BTreeMap`) are modelled as association lists; the leaf bucket's
key-value map is kept in ascending key order exactly as a `BTreeMap<Key,
Value>` iterates it.  The `EmptySubtreeRoots` table lives in a module that
is not part of the sources, so it is modelled from the spec (see `entry`).
-/

namespace SmtSpec

/-- Leaf depth of the tree: all leaves exist at depth 64 (src/leaf.rs). -/
def LEAF_DEPTH : Nat := 64

/-- A 256-bit key, eight 32-bit words (`Key(pub [u32; 8])` in src/lib.rs),
modelled as the list of its words. -/
abbrev Key := List Nat

/-- A 256-bit value, eight 32-bit words (`Value(pub [u32; 8])`). -/
abbrev Value := List Nat

/-- `Value::EMPTY`, the all-zero value. -/
def EMPTY : Value := List.replicate 8 0

/-- Lexicographic strict order on word lists, matching the derived `Ord`
on `Key(pub [u32; 8])` for the equal-length keys the program uses. -/
def keyLt : List Nat → List Nat → Bool
  | [], [] => false
  | [], _ :: _ => true
  | _ :: _, [] => false
  | a :: as, b :: bs => if a < b then true else if a = b then keyLt as bs else false

/-- `BTreeMap::get` on the leaf bucket. -/
def kvsGet : List (Key × Value) → Key → Option Value
  | [], _ => none
  | (k', v') :: rest, k => if k = k' then some v' else kvsGet rest k

/-- `BTreeMap::insert` on the leaf bucket: replace the binding of an
existing key, otherwise insert at the (ascending-order) position. -/
def kvsInsert : List (Key × Value) → Key → Value → List (Key × Value)
  | [], k, v => [(k, v)]
  | (k', v') :: rest, k, v =>
      if keyLt k k' then (k, v) :: (k', v') :: rest
      else if k = k' then (k, v) :: rest
      else (k', v') :: kvsInsert rest k v

/-- `BTreeMap::remove` on the leaf bucket: the removed binding (if any)
together with the remaining map. -/
def kvsRemove : List (Key × Value) → Key → Option Value × List (Key × Value)
  | [], _ => (none, [])
  | (k', v') :: rest, k =>
      if k = k' then (some v', rest)
      else
        let res := kvsRemove rest k
        (res.1, (k', v') :: res.2)

/-- `key_to_leaf_index` (src/leaf.rs): the 64-bit leaf index is word 6 of
the key in the low 32 bits and word 7 in the high 32 bits. -/
def key_to_leaf_index (k : Key) : Nat :=
  (k.getD 6 0) % 2 ^ 32 + 2 ^ 32 * ((k.getD 7 0) % 2 ^ 32)

/-- `SmtLeaf` (src/leaf.rs): a collision bucket holding the keys that map
to one leaf index, in ascending key order. -/
structure SmtLeaf where
  index : Nat
  kvs : List (Key × Value)
  deriving DecidableEq, Repr

/-- `SmtLeaf::new`. -/
def SmtLeaf.new (index : Nat) : SmtLeaf := ⟨index, []⟩

/-- `SmtLeaf::get_direct`: raw bucket lookup. -/
def SmtLeaf.get_direct (leaf : SmtLeaf) (k : Key) : Option Value :=
  kvsGet leaf.kvs k

/-- `SmtLeaf::get`: `None` on a leaf-index mismatch, otherwise the stored
value or the EMPTY default. -/
def SmtLeaf.get (leaf : SmtLeaf) (k : Key) : Option Value :=
  if key_to_leaf_index k ≠ leaf.index then none
  else some ((kvsGet leaf.kvs k).getD EMPTY)

/-- `SmtLeaf::insert`: previous value (EMPTY if absent) and updated leaf. -/
def SmtLeaf.insert (leaf : SmtLeaf) (k : Key) (v : Value) : Value × SmtLeaf :=
  ((kvsGet leaf.kvs k).getD EMPTY, { leaf with kvs := kvsInsert leaf.kvs k v })

/-- `SmtLeaf::remove`: removed value (if present) and updated leaf. -/
def SmtLeaf.remove (leaf : SmtLeaf) (k : Key) : Option Value × SmtLeaf :=
  let res := kvsRemove leaf.kvs k
  (res.1, { leaf with kvs := res.2 })

/-- The hash capability consumed by the tree (`H: Sha256` in the source):
an order-sensitive pair hash, a word-sequence hash, and the zero digest
(`Digest::ZERO`). -/
structure Hasher (D : Type) where
  hashPair : D → D → D
  hashWords : List Nat → D
  zero : D

/-- `SmtLeaf::hash`: the concatenation of key words then value words for
each pair in ascending key order; `None` when no words result. -/
def SmtLeaf.hash {D : Type} (hf : Hasher D) (leaf : SmtLeaf) : Option D :=
  let words := leaf.kvs.foldr (fun p acc => p.1 ++ p.2 ++ acc) []
  if words.isEmpty then none else some (hf.hashWords words)

/-- Modelled from the spec: the `EmptySubtreeRoots` table lives in the
`empty_roots` module, which is absent from the sources.  Per spec section 3,
counted here by height above the leaves: at the leaf level the canonical
empty digest is the all-zero sentinel used in combination logic, and each
level above hashes the pair of the level below with itself. -/
def entryAux {D : Type} (hf : Hasher D) : Nat → D
  | 0 => hf.zero
  | n + 1 => hf.hashPair (entryAux hf n) (entryAux hf n)

/-- Modelled from the spec: `EmptySubtreeRoots::entry(LEAF_DEPTH, d)`, the
canonical digest of a fully empty subtree rooted at depth `d`. -/
def entry {D : Type} (hf : Hasher D) (d : Nat) : D :=
  entryAux hf (LEAF_DEPTH - d)

/-- `InnerNode`: the cached pair of child digests of an interior node. -/
structure InnerNode (D : Type) where
  left : D
  right : D
  deriving DecidableEq, Repr

/-- Association-list lookup, used for both `BTreeMap`s of the `Smt`. -/
def alLookup {I A : Type} [DecidableEq I] : List (I × A) → I → Option A
  | [], _ => none
  | (i, a) :: rest, q => if q = i then some a else alLookup rest q

/-- Association-list insert-or-replace (`BTreeMap::insert`). -/
def alInsert {I A : Type} [DecidableEq I] : List (I × A) → I → A → List (I × A)
  | [], q, x => [(q, x)]
  | (i, a) :: rest, q, x =>
      if i = q then (q, x) :: rest else (i, a) :: alInsert rest q x

/-- Association-list removal (`BTreeMap::remove`, keys are unique). -/
def alErase {I A : Type} [DecidableEq I] : List (I × A) → I → List (I × A)
  | [], _ => []
  | (i, a) :: rest, q =>
      if i = q then alErase rest q else (i, a) :: alErase rest q

/-- `Smt`: root digest, sparse leaf map keyed by leaf index, sparse inner
node map keyed by `NodeIndex` = (depth, value). -/
structure Smt (D : Type) where
  root : D
  leaves : List (Nat × SmtLeaf)
  inner : List ((Nat × Nat) × InnerNode D)
  deriving DecidableEq

variable {D : Type} [DecidableEq D]

/-- `Smt::get_inner_node`: the stored node, or the synthetic node whose
children are both the empty-subtree digest one level deeper. -/
def getInnerNode (hf : Hasher D) (inner : List ((Nat × Nat) × InnerNode D))
    (idx : Nat × Nat) : InnerNode D :=
  (alLookup inner idx).getD ⟨entry hf (idx.1 + 1), entry hf (idx.1 + 1)⟩

/-- `Smt::new`: root = hash_pair(entry 1, entry 1), both maps empty. -/
def Smt.new (hf : Hasher D) : Smt D :=
  ⟨hf.hashPair (entry hf 1) (entry hf 1), [], []⟩

/-- The `for node_depth in (0..index.depth).rev()` loop of
`recompute_nodes_from_leaf_to_root`: walk from depth `depth` to the root,
substituting the running digest into the vacated side, pruning the parent
entry when its digest equals the canonical empty default and storing it
otherwise.  Returns the final digest (the new root) and the updated inner
node map. -/
def recomputeLoop (hf : Hasher D) :
    Nat → Nat → D → List ((Nat × Nat) × InnerNode D) →
      D × List ((Nat × Nat) × InnerNode D)
  | 0, _, node_hash, inner => (node_hash, inner)
  | d + 1, value, node_hash, inner =>
      let node := getInnerNode hf inner (d, value / 2)
      let l := if value % 2 = 0 then node_hash else node.left
      let r := if value % 2 = 0 then node.right else node_hash
      let nh := hf.hashPair l r
      let inner' :=
        if nh = entry hf d then alErase inner (d, value / 2)
        else alInsert inner (d, value / 2) ⟨l, r⟩
      recomputeLoop hf d (value / 2) nh inner'

/-- `Smt::recompute_nodes_from_leaf_to_root`.  The `None` (emptied leaf)
case substitutes the zero sentinel, takes one step up to depth 63 without
storing or pruning there, and only then enters the generic loop. -/
def recompute_nodes_from_leaf_to_root (hf : Hasher D) (s : Smt D)
    (leaf_index : Nat) (leaf_hash : Option D) : Smt D :=
  match leaf_hash with
  | some digest =>
      let res := recomputeLoop hf LEAF_DEPTH leaf_index digest s.inner
      { s with root := res.1, inner := res.2 }
  | none =>
      let node := getInnerNode hf s.inner (LEAF_DEPTH - 1, leaf_index / 2)
      let l := if leaf_index % 2 = 0 then hf.zero else node.left
      let r := if leaf_index % 2 = 0 then node.right else hf.zero
      let res :=
        recomputeLoop hf (LEAF_DEPTH - 1) (leaf_index / 2) (hf.hashPair l r) s.inner
      { s with root := res.1, inner := res.2 }

/-- The sibling-collection loop of `Smt::get`: at each of `d` steps record
the child digest opposite the vacated side, from leaf level upward. -/
def pathNodes (hf : Hasher D) (inner : List ((Nat × Nat) × InnerNode D)) :
    Nat → Nat → List D
  | 0, _ => []
  | d + 1, value =>
      let node := getInnerNode hf inner (d, value / 2)
      (if value % 2 = 0 then node.right else node.left) :: pathNodes hf inner d (value / 2)

/-- `SmtProof`: the Merkle path (64 sibling digests, leaf to root) plus
the whole leaf bucket. -/
structure SmtProof (D : Type) where
  path : List D
  leaf : SmtLeaf

/-- `Smt::get`: the value stored for the key (EMPTY by default) and the
proof made of the leaf bucket and the sibling path.  Pure: it cannot
mutate the tree. -/
def Smt.get (hf : Hasher D) (s : Smt D) (k : Key) : Value × SmtProof D :=
  let leaf_index := key_to_leaf_index k
  let leaf := (alLookup s.leaves leaf_index).getD (SmtLeaf.new leaf_index)
  let value := (SmtLeaf.get_direct leaf k).getD EMPTY
  (value, ⟨pathNodes hf s.inner LEAF_DEPTH leaf_index, leaf⟩)

/-- `Smt::remove`: no-op returning EMPTY when the leaf or the key is
absent; otherwise remove the key and recompute the path with the leaf's
new hash (`None` when the bucket emptied). -/
def Smt.remove (hf : Hasher D) (s : Smt D) (k : Key) : Value × Smt D :=
  let leaf_index := key_to_leaf_index k
  match alLookup s.leaves leaf_index with
  | none => (EMPTY, s)
  | some leaf =>
      match (SmtLeaf.remove leaf k).1 with
      | none => (EMPTY, s)
      | some old_value =>
          let leaf' := (SmtLeaf.remove leaf k).2
          let s1 : Smt D := { s with leaves := alInsert s.leaves leaf_index leaf' }
          (old_value,
            recompute_nodes_from_leaf_to_root hf s1 leaf_index (SmtLeaf.hash hf leaf'))

/-- `Smt::insert`: inserting EMPTY delegates to remove; inserting the
value already present returns early without recomputation. -/
def Smt.insert (hf : Hasher D) (s : Smt D) (k : Key) (v : Value) : Value × Smt D :=
  if v = EMPTY then Smt.remove hf s k
  else
    let leaf_index := key_to_leaf_index k
    let leaf := (alLookup s.leaves leaf_index).getD (SmtLeaf.new leaf_index)
    let res := SmtLeaf.insert leaf k v
    let leaves' := alInsert s.leaves leaf_index res.2
    if res.1 = v then (v, { s with leaves := leaves' })
    else
      let s1 : Smt D := { s with leaves := leaves' }
      (res.1,
        recompute_nodes_from_leaf_to_root hf s1 leaf_index (SmtLeaf.hash hf res.2))

/-- The fold of `MerklePath::compute_root`: combine the running digest
with each sibling on the side given by the index parity, halving the
index at each step. -/
def foldRoot (hf : Hasher D) : List D → Nat → D → D
  | [], _, acc => acc
  | sib :: rest, value, acc =>
      foldRoot hf rest (value / 2)
        (if value % 2 = 0 then hf.hashPair acc sib else hf.hashPair sib acc)

/-- `MerklePath::compute_root`: `none` models the
`expect("Merkle Path must not be empty")` panic on an empty path. -/
def merkle_compute_root (hf : Hasher D) (nodes : List D) (index : Nat)
    (init_hash : D) : Option D :=
  match nodes with
  | [] => none
  | _ :: _ => some (foldRoot hf nodes index init_hash)

/-- `SmtProof::compute_root`: seed with the leaf hash or the zero
sentinel, then fold the path at the leaf's own index. -/
def SmtProof.compute_root (hf : Hasher D) (p : SmtProof D) : Option D :=
  merkle_compute_root hf p.path p.leaf.index ((SmtLeaf.hash hf p.leaf).getD hf.zero)

/-- `SmtProof::verify`: false when the leaf does not associate the key
with the value, otherwise compare the recomputed root; `none` models the
panic reachable through an empty path. -/
def SmtProof.verify (hf : Hasher D) (p : SmtProof D) (k : Key) (v : Value)
    (root : D) : Option Bool :=
  match SmtLeaf.get p.leaf k with
  | none => some false
  | some lv =>
      if lv ≠ v then some false
      else
        match SmtProof.compute_root hf p with
        | none => none
        | some pr => some (decide (pr = root))

/-- Modelled from the spec: the unified single loop of spec section 4.4,
which seeds the running digest with the leaf hash or the zero sentinel at
depth 64 and performs the delete-or-store step at every one of the 64
parent positions.  Used to compare against the code's special-cased
`None` branch (claim about spec section 9). -/
def recomputeUnified (hf : Hasher D) (s : Smt D) (leaf_index : Nat)
    (leaf_hash : Option D) : Smt D :=
  let res := recomputeLoop hf LEAF_DEPTH leaf_index (leaf_hash.getD hf.zero) s.inner
  { s with root := res.1, inner := res.2 }

/-- The states reachable from `Smt::new` by insert and remove calls. -/
inductive Reachable (hf : Hasher D) : Smt D → Prop where
  | new : Reachable hf (Smt.new hf)
  | ins {s : Smt D} (k : Key) (v : Value) :
      Reachable hf s → Reachable hf (Smt.insert hf s k v).2
  | rem {s : Smt D} (k : Key) :
      Reachable hf s → Reachable hf (Smt.remove hf s k).2

/-- A concrete executable hasher used for concrete runs of the model: the
pair hash is `a + b + 1` and the word hash is `sum + 1`, which keeps every
digest small while separating the digests the scenarios compare. -/
def natHasher : Hasher Nat :=
  ⟨fun a b => a + b + 1, fun ws => ws.sum + 1, 0⟩

/-- One `SmtLeaf::insert` step, dropping the returned old value. -/
def leafStep (lf : SmtLeaf) (p : Key × Value) : SmtLeaf :=
  (SmtLeaf.insert lf p.1 p.2).2

/-- Building a leaf bucket by inserting a list of pairs in order. -/
def buildLeaf (index : Nat) (ps : List (Key × Value)) : SmtLeaf :=
  ps.foldl leafStep (SmtLeaf.new index)

/-- The sibling digests read along a fully-empty path: the empty-subtree
digests from the leaf level up to depth 1. -/
def descList (hf : Hasher D) : Nat → List D
  | 0 => []
  | n + 1 => entry hf (n + 1) :: descList hf n

theorem alLookup_insert {I A : Type} [DecidableEq I] (m : List (I × A)) (q p : I) (x : A) :
    alLookup (alInsert m q x) p = if p = q then some x else alLookup m p := by
  induction m with
  | nil => simp [alInsert, alLookup]
  | cons hd tl ih =>
    obtain ⟨i, a⟩ := hd
    by_cases hiq : i = q
    · subst hiq
      by_cases hpq : p = i <;> simp [alInsert, alLookup, hpq]
    · by_cases hpi : p = i
      · subst hpi
        simp [alInsert, alLookup, hiq, fun h : p = q => hiq (h ▸ rfl)]
      · simp [alInsert, alLookup, hiq, hpi, ih]

theorem alLookup_erase {I A : Type} [DecidableEq I] (m : List (I × A)) (q p : I) :
    alLookup (alErase m q) p = if p = q then none else alLookup m p := by
  induction m with
  | nil => simp [alErase, alLookup]
  | cons hd tl ih =>
    obtain ⟨i, a⟩ := hd
    by_cases hiq : i = q
    · subst hiq
      rw [show alErase ((i, a) :: tl) i = alErase tl i from by simp [alErase], ih]
      by_cases hpq : p = i <;> simp [hpq, alLookup]
    · rw [show alErase ((i, a) :: tl) q = (i, a) :: alErase tl q from by
        simp [alErase, hiq]]
      by_cases hpi : p = i
      · have hpq : p ≠ q := by rw [hpi]; exact hiq
        simp [alLookup, hpi, hpq, hiq]
      · simp [alLookup, hpi, ih]

theorem kvsRemove_fst (l : List (Key × Value)) (k : Key) :
    (kvsRemove l k).1 = kvsGet l k := by
  induction l with
  | nil => rfl
  | cons hd tl ih =>
    obtain ⟨k', v'⟩ := hd
    by_cases hk : k = k' <;> simp [kvsRemove, kvsGet, hk, ih]

theorem entry_succ (hf : Hasher D) {d : Nat} (hd : d < 64) :
    entry hf d = hf.hashPair (entry hf (d + 1)) (entry hf (d + 1)) := by
  unfold entry LEAF_DEPTH
  have h : 64 - d = (64 - (d + 1)) + 1 := by omega
  rw [h]
  rfl

theorem entry_leaf_level (hf : Hasher D) : entry hf 64 = hf.zero := rfl

theorem pathNodes_nil (hf : Hasher D) (n : Nat) :
    ∀ v, pathNodes hf ([] : List ((Nat × Nat) × InnerNode D)) n v = descList hf n := by
  induction n with
  | zero => intro v; rfl
  | succ d ih => intro v; simp [pathNodes, descList, getInnerNode, alLookup, ih]

theorem foldRoot_desc (hf : Hasher D) (n : Nat) (hn : n ≤ 64) :
    ∀ v, foldRoot hf (descList hf n) v (entry hf n) = entry hf 0 := by
  induction n with
  | zero => intro v; rfl
  | succ d ih =>
    intro v
    have hlt : d < 64 := by omega
    have hstep : hf.hashPair (entry hf (d + 1)) (entry hf (d + 1)) = entry hf d :=
      (entry_succ hf hlt).symm
    simp only [descList, foldRoot, ite_self]
    rw [hstep]
    exact ih (by omega) (v / 2)

/-- Claim C6: on a freshly created tree, `get` returns EMPTY with a proof
that verifies against the current root for every key, and the root equals
the precomputed empty-tree root `hash_pair(entry 1, entry 1)`. -/
theorem c6_fresh_tree_get (hf : Hasher D) (k : Key) :
    (Smt.get hf (Smt.new hf) k).1 = EMPTY ∧
    SmtProof.verify hf (Smt.get hf (Smt.new hf) k).2 k EMPTY (Smt.new hf).root = some true ∧
    (Smt.new hf).root = hf.hashPair (entry hf 1) (entry hf 1) := by
  refine ⟨rfl, ?_, rfl⟩
  show SmtProof.verify hf
      ⟨pathNodes hf [] LEAF_DEPTH (key_to_leaf_index k),
        SmtLeaf.new (key_to_leaf_index k)⟩ k EMPTY (Smt.new hf).root = some true
  have hleafget : SmtLeaf.get (SmtLeaf.new (key_to_leaf_index k)) k = some EMPTY := by
    simp [SmtLeaf.get, SmtLeaf.new, kvsGet]
  have hpath : pathNodes hf ([] : List ((Nat × Nat) × InnerNode D)) LEAF_DEPTH
      (key_to_leaf_index k) = descList hf 64 :=
    pathNodes_nil hf 64 (key_to_leaf_index k)
  have hcr : SmtProof.compute_root hf
      (⟨pathNodes hf [] LEAF_DEPTH (key_to_leaf_index k),
        SmtLeaf.new (key_to_leaf_index k)⟩ : SmtProof D) = some (entry hf 0) := by
    unfold SmtProof.compute_root
    rw [hpath]
    show some (foldRoot hf (descList hf 64) (key_to_leaf_index k) (entry hf 64)) =
      some (entry hf 0)
    rw [foldRoot_desc hf 64 le_rfl]
  have hroot : (Smt.new hf).root = entry hf 0 := rfl
  unfold SmtProof.verify
  rw [hleafget, hroot]
  simp [hcr]

theorem recompute_leaves (hf : Hasher D) (s : Smt D) (i : Nat) (lh : Option D) :
    (recompute_nodes_from_leaf_to_root hf s i lh).leaves = s.leaves := by
  cases lh <;> rfl

/-- Claim C7 (amended): for every SmtProof whose Merkle path is nonempty,
`verify` returns a boolean (it cannot panic), true exactly when the leaf
bucket associates the key with the value and the recomputed root equals
the given root. -/
theorem c7_verify_characterization (hf : Hasher D) (p : SmtProof D) (k : Key)
    (v : Value) (root : D) (hne : p.path ≠ []) :
    SmtProof.verify hf p k v root =
      some (decide (SmtLeaf.get p.leaf k = some v) &&
            decide (SmtProof.compute_root hf p = some root)) := by
  obtain ⟨nodes, leaf⟩ := p
  have hex : ∃ pr, SmtProof.compute_root hf ⟨nodes, leaf⟩ = some pr := by
    cases nodes with
    | nil => exact absurd rfl hne
    | cons a rest => exact ⟨_, rfl⟩
  obtain ⟨pr, hpr⟩ := hex
  unfold SmtProof.verify
  cases hg : SmtLeaf.get leaf k with
  | none => simp
  | some lv =>
    by_cases hv : lv = v
    · subst hv
      simp [hpr]
    · simp [hv]

/-- Claim C7, counterexample to the claim as stated: an SmtProof with an
empty Merkle path and a matching leaf makes `verify` hit the
`expect("Merkle Path must not be empty")` panic (modelled as `none`), so
`verify` is not a total boolean predicate over every SmtProof value. -/
theorem c7_verify_empty_path_cex :
    SmtProof.verify natHasher ⟨[], SmtLeaf.new 0⟩ (List.replicate 8 0) EMPTY 0 = none := by
  decide

theorem c7_verify_characterization_witness :
    (([0] : List Nat) ≠ []) ∧
    SmtProof.verify natHasher ⟨[0], SmtLeaf.new 0⟩ (List.replicate 8 0) EMPTY 0 =
      some (decide (SmtLeaf.get (SmtLeaf.new 0) (List.replicate 8 0) = some EMPTY) &&
            decide (SmtProof.compute_root natHasher ⟨[0], SmtLeaf.new 0⟩ = some 0)) :=
  ⟨by decide,
    c7_verify_characterization natHasher ⟨[0], SmtLeaf.new 0⟩ (List.replicate 8 0)
      EMPTY 0 (by decide)⟩

/-- Claim C9: removing a key whose leaf is absent, or whose leaf does not
contain it, returns EMPTY and leaves the whole state unchanged. -/
theorem c9_remove_noop (hf : Hasher D) (s : Smt D) (k : Key) :
    (alLookup s.leaves (key_to_leaf_index k) = none →
      Smt.remove hf s k = (EMPTY, s)) ∧
    (∀ leaf, alLookup s.leaves (key_to_leaf_index k) = some leaf →
      kvsGet leaf.kvs k = none → Smt.remove hf s k = (EMPTY, s)) := by
  constructor
  · intro hnone
    unfold Smt.remove
    simp only [hnone]
  · intro leaf hsome hget
    have hrm : (SmtLeaf.remove leaf k).1 = none := by
      simp [SmtLeaf.remove, kvsRemove_fst, hget]
    unfold Smt.remove
    simp only [hsome, hrm]

theorem c9_remove_noop_witness :
    (alLookup (Smt.new natHasher).leaves (key_to_leaf_index (List.replicate 8 0)) = none ∧
      Smt.remove natHasher (Smt.new natHasher) (List.replicate 8 0) =
        (EMPTY, Smt.new natHasher)) ∧
    (alLookup (Smt.mk 0 [(5, SmtLeaf.mk 5 [([1,0,0,0,0,0,5,0], [1,0,0,0,0,0,0,0])])] []
        : Smt Nat).leaves  (key_to_leaf_index [0,0,0,0,0,0,5,0]) =
        some (SmtLeaf.mk 5 [([1,0,0,0,0,0,5,0], [1,0,0,0,0,0,0,0])]) ∧
      kvsGet (SmtLeaf.mk 5 [([1,0,0,0,0,0,5,0], [1,0,0,0,0,0,0,0])]).kvs
        [0,0,0,0,0,0,5,0] = none ∧
      Smt.remove natHasher
        (Smt.mk 0 [(5, SmtLeaf.mk 5 [([1,0,0,0,0,0,5,0], [1,0,0,0,0,0,0,0])])] [])
        [0,0,0,0,0,0,5,0] =
        (EMPTY, Smt.mk 0 [(5, SmtLeaf.mk 5 [([1,0,0,0,0,0,5,0], [1,0,0,0,0,0,0,0])])] [])) :=
  ⟨⟨by decide,
      (c9_remove_noop natHasher (Smt.new natHasher) (List.replicate 8 0)).1 (by decide)⟩,
    by decide, by decide,
    (c9_remove_noop natHasher
        (Smt.mk 0 [(5, SmtLeaf.mk 5 [([1,0,0,0,0,0,5,0], [1,0,0,0,0,0,0,0])])] [])
        [0,0,0,0,0,0,5,0]).2
      (SmtLeaf.mk 5 [([1,0,0,0,0,0,5,0], [1,0,0,0,0,0,0,0])]) (by decide) (by decide)⟩

/-- Claim C10: `remove` never deletes an entry from the leaves map; when
it empties a bucket, an empty SmtLeaf remains stored at that leaf index
(so the state differs structurally from one that never held the leaf). -/
theorem c10_remove_keeps_leaf (hf : Hasher D) (s : Smt D) (k : Key) :
    (∀ i, (alLookup s.leaves i).isSome = true →
      (alLookup ((Smt.remove hf s k).2).leaves i).isSome = true) ∧
    (∀ leaf v, alLookup s.leaves (key_to_leaf_index k) = some leaf →
      leaf.index = key_to_leaf_index k → leaf.kvs = [(k, v)] →
      alLookup ((Smt.remove hf s k).2).leaves (key_to_leaf_index k) =
        some ⟨key_to_leaf_index k, []⟩) := by
  constructor
  · intro i hi
    cases hl : alLookup s.leaves (key_to_leaf_index k) with
    | none =>
      unfold Smt.remove
      simp only [hl]
      exact hi
    | some leaf =>
      cases hrm : (SmtLeaf.remove leaf k).1 with
      | none =>
        unfold Smt.remove
        simp only [hl, hrm]
        exact hi
      | some old =>
        unfold Smt.remove
        simp only [hl, hrm, recompute_leaves, alLookup_insert]
        by_cases hik : i = key_to_leaf_index k
        · simp [hik]
        · simp [hik, hi]
  · intro leaf v hsome hidx hkvs
    have hrm : SmtLeaf.remove leaf k = (some v, ⟨leaf.index, []⟩) := by
      simp [SmtLeaf.remove, hkvs, kvsRemove]
    unfold Smt.remove
    simp only [hsome, hrm, recompute_leaves, alLookup_insert, if_pos rfl, hidx]
    simp

theorem c10_remove_keeps_leaf_witness :
    ((alLookup (Smt.mk 7 [(0, SmtLeaf.mk 0 [(List.replicate 8 0, [3,0,0,0,0,0,0,0])])] []
        : Smt Nat).leaves 0).isSome = true ∧
      (alLookup ((Smt.remove natHasher
          (Smt.mk 7 [(0, SmtLeaf.mk 0 [(List.replicate 8 0, [3,0,0,0,0,0,0,0])])] [])
          (List.replicate 8 0)).2).leaves 0).isSome = true) ∧
    (alLookup (Smt.mk 7 [(0, SmtLeaf.mk 0 [(List.replicate 8 0, [3,0,0,0,0,0,0,0])])] []
        : Smt Nat).leaves (key_to_leaf_index (List.replicate 8 0)) =
        some (SmtLeaf.mk 0 [(List.replicate 8 0, [3,0,0,0,0,0,0,0])]) ∧
      alLookup ((Smt.remove natHasher
          (Smt.mk 7 [(0, SmtLeaf.mk 0 [(List.replicate 8 0, [3,0,0,0,0,0,0,0])])] [])
          (List.replicate 8 0)).2).leaves (key_to_leaf_index (List.replicate 8 0)) =
        some ⟨key_to_leaf_index (List.replicate 8 0), []⟩) :=
  ⟨⟨by decide,
      (c10_remove_keeps_leaf natHasher
          (Smt.mk 7 [(0, SmtLeaf.mk 0 [(List.replicate 8 0, [3,0,0,0,0,0,0,0])])] [])
          (List.replicate 8 0)).1 0 (by decide)⟩,
    by decide,
    (c10_remove_keeps_leaf natHasher
        (Smt.mk 7 [(0, SmtLeaf.mk 0 [(List.replicate 8 0, [3,0,0,0,0,0,0,0])])] [])
        (List.replicate 8 0)).2
      (SmtLeaf.mk 0 [(List.replicate 8 0, [3,0,0,0,0,0,0,0])]) [3,0,0,0,0,0,0,0]
      (by decide) (by decide) (by decide)⟩

/-- The pruning invariant on an inner-node map: no stored entry at depth
`d` has both children equal to the canonical empty default of depth
`d + 1`. -/
def nodeMapInv (hf : Hasher D) (m : List ((Nat × Nat) × InnerNode D)) : Prop :=
  ∀ d w nd, alLookup m (d, w) = some nd →
    ¬(nd.left = entry hf (d + 1) ∧ nd.right = entry hf (d + 1))

theorem nodeMapInv_step (hf : Hasher D) (m : List ((Nat × Nat) × InnerNode D))
    (n v : Nat) (hn : n < 64) (l r : D) (hm : nodeMapInv hf m) :
    nodeMapInv hf (if hf.hashPair l r = entry hf n then alErase m (n, v)
      else alInsert m (n, v) ⟨l, r⟩) := by
  by_cases hcase : hf.hashPair l r = entry hf n
  · rw [if_pos hcase]
    intro d w nd hlook hboth
    rw [alLookup_erase] at hlook
    by_cases h : ((d, w) : Nat × Nat) = (n, v)
    · rw [if_pos h] at hlook
      exact Option.noConfusion hlook
    · rw [if_neg h] at hlook
      exact hm d w nd hlook hboth
  · rw [if_neg hcase]
    intro d w nd hlook hboth
    rw [alLookup_insert] at hlook
    by_cases h : ((d, w) : Nat × Nat) = (n, v)
    · rw [if_pos h] at hlook
      have hdn : d = n := (Prod.mk.injEq d w n v ▸ h).1
      have hnd : nd = ⟨l, r⟩ := (Option.some.injEq _ _ ▸ hlook).symm
      subst hdn
      rw [hnd] at hboth
      have h1 : l = entry hf (d + 1) := hboth.1
      have h2 : r = entry hf (d + 1) := hboth.2
      exact hcase (by rw [h1, h2]; exact (entry_succ hf hn).symm)
    · rw [if_neg h] at hlook
      exact hm d w nd hlook hboth

theorem recomputeLoop_inv (hf : Hasher D) :
    ∀ n v dg m, n ≤ 64 → nodeMapInv hf m →
      nodeMapInv hf (recomputeLoop hf n v dg m).2 := by
  intro n
  induction n with
  | zero => intro v dg m _ hm; exact hm
  | succ n ih =>
    intro v dg m hn hm
    simp only [recomputeLoop]
    exact ih (v / 2) _ _ (by omega) (nodeMapInv_step hf m n (v / 2) (by omega) _ _ hm)

theorem recompute_inv (hf : Hasher D) (s : Smt D) (i : Nat) (lh : Option D)
    (hm : nodeMapInv hf s.inner) :
    nodeMapInv hf (recompute_nodes_from_leaf_to_root hf s i lh).inner := by
  cases lh with
  | some dg => exact recomputeLoop_inv hf 64 i dg s.inner (by omega) hm
  | none => exact recomputeLoop_inv hf 63 (i / 2) _ s.inner (by omega) hm

theorem remove_inv (hf : Hasher D) (s : Smt D) (k : Key)
    (hm : nodeMapInv hf s.inner) :
    nodeMapInv hf ((Smt.remove hf s k).2).inner := by
  cases hl : alLookup s.leaves (key_to_leaf_index k) with
  | none =>
    unfold Smt.remove
    simp only [hl]
    exact hm
  | some leaf =>
    cases hrm : (SmtLeaf.remove leaf k).1 with
    | none =>
      unfold Smt.remove
      simp only [hl, hrm]
      exact hm
    | some old =>
      unfold Smt.remove
      simp only [hl, hrm]
      exact recompute_inv hf _ _ _ hm

theorem insert_inv (hf : Hasher D) (s : Smt D) (k : Key) (v : Value)
    (hm : nodeMapInv hf s.inner) :
    nodeMapInv hf ((Smt.insert hf s k v).2).inner := by
  by_cases hv : v = EMPTY
  · unfold Smt.insert
    simp only [if_pos hv]
    exact remove_inv hf s k hm
  · by_cases hold : (SmtLeaf.insert
        ((alLookup s.leaves (key_to_leaf_index k)).getD
          (SmtLeaf.new (key_to_leaf_index k))) k v).1 = v
    · unfold Smt.insert
      simp only [if_neg hv, if_pos hold]
      exact hm
    · unfold Smt.insert
      simp only [if_neg hv, if_neg hold]
      exact recompute_inv hf _ _ _ hm

/-- Claim C5: in every state reachable by insert/remove from a fresh
tree, no stored inner node has both children equal to the canonical
empty-subtree digest for its depth: pruning always applies. -/
theorem c5_inner_nodes_pruned (hf : Hasher D) (s : Smt D) (hr : Reachable hf s)
    (d w : Nat) (nd : InnerNode D) (hlook : alLookup s.inner (d, w) = some nd) :
    ¬(nd.left = entry hf (d + 1) ∧ nd.right = entry hf (d + 1)) := by
  have main : ∀ s' : Smt D, Reachable hf s' → nodeMapInv hf s'.inner := by
    intro s' hr'
    induction hr' with
    | new =>
      intro d' w' nd' h
      simp [Smt.new, alLookup] at h
    | ins k v hs ihs => exact insert_inv hf _ k v ihs
    | rem k hs ihs => exact remove_inv hf _ k ihs
  exact main s hr d w nd hlook

set_option maxRecDepth 10000 in
theorem c5_inner_nodes_pruned_witness :
    alLookup ((Smt.insert natHasher (Smt.new natHasher) (List.replicate 8 0)
        [1,0,0,0,0,0,0,0]).2).inner (63, 0) = some ⟨2, 0⟩ ∧
    ¬((InnerNode.mk 2 0 : InnerNode Nat).left = entry natHasher 64 ∧
      (InnerNode.mk 2 0 : InnerNode Nat).right = entry natHasher 64) :=
  ⟨by decide,
    c5_inner_nodes_pruned natHasher
      (Smt.insert natHasher (Smt.new natHasher) (List.replicate 8 0)
        [1,0,0,0,0,0,0,0]).2
      (Reachable.ins (List.replicate 8 0) [1,0,0,0,0,0,0,0] Reachable.new)
      63 0 ⟨2, 0⟩ (by decide)⟩

/-- Key hashing to leaf index 0. -/
def keyA : Key := [0, 0, 0, 0, 0, 0, 0, 0]

/-- Key hashing to leaf index 1, the sibling leaf of `keyA`'s leaf. -/
def keyB : Key := [0, 0, 0, 0, 0, 0, 1, 0]

def valA : Value := [1, 0, 0, 0, 0, 0, 0, 0]

def valB : Value := [2, 0, 0, 0, 0, 0, 0, 0]

/-- The state after inserting `keyA ↦ valA` into a fresh tree. -/
def insState : Smt Nat := (Smt.insert natHasher (Smt.new natHasher) keyA valA).2

/-- `insState` with the bucket of `keyA` emptied but the path not yet
recomputed: exactly the intermediate state `Smt::remove` passes to
`recompute_nodes_from_leaf_to_root` with `leaf_hash = None`. -/
def emptiedState : Smt Nat :=
  { insState with leaves := alInsert insState.leaves 0 (SmtLeaf.mk 0 []) }

/-- The state after inserting `keyA`, removing it (which leaves a stale
inner node at the depth-63 parent), and inserting the sibling key. -/
def staleState : Smt Nat :=
  (Smt.insert natHasher
    ((Smt.remove natHasher
      ((Smt.insert natHasher (Smt.new natHasher) keyA valA).2) keyA).2)
    keyB valB).2

set_option maxRecDepth 100000 in
/-- Claim C1, evaluation at the failing input: in the reachable state
obtained by insert keyA, remove keyA, insert keyB (the sibling leaf),
`get(keyA)` returns EMPTY but its proof does not verify against the
current root: the depth-63 parent still stores the removed leaf's old
hash, so the recomputed path digest disagrees with the root. -/
theorem c1_get_verify_code_bug :
    Reachable natHasher staleState ∧
    (Smt.get natHasher staleState keyA).1 = EMPTY ∧
    SmtProof.verify natHasher (Smt.get natHasher staleState keyA).2 keyA EMPTY
      staleState.root = some false :=
  ⟨Reachable.ins keyB valB (Reachable.rem keyA (Reachable.ins keyA valA Reachable.new)),
    by decide, by decide⟩

set_option maxRecDepth 100000 in
/-- Claim C2, evaluation at the failing input: when a remove empties the
bucket of `keyA`, the code's special-cased `None` recomputation and the
unified single loop of spec section 4.4 agree on the root but not on the
inner-node map: the code leaves the stale node at the depth-63 parent
while the unified loop deletes it. -/
theorem c2_unified_loop_code_bug :
    (Smt.remove natHasher insState keyA).2 =
      recompute_nodes_from_leaf_to_root natHasher emptiedState 0 none ∧
    (recompute_nodes_from_leaf_to_root natHasher emptiedState 0 none).root =
      (recomputeUnified natHasher emptiedState 0 none).root ∧
    alLookup (recompute_nodes_from_leaf_to_root natHasher emptiedState 0 none).inner
      (63, 0) = some ⟨2, 0⟩ ∧
    alLookup (recomputeUnified natHasher emptiedState 0 none).inner (63, 0) = none := by
  decide

/-- The reachable state insert keyA, insert keyB, remove keyB: the
depth-63 parent of both leaves still stores keyB's old leaf hash as its
right child even though keyB's bucket is empty. -/
def preC3 : Smt Nat :=
  (Smt.remove natHasher
    ((Smt.insert natHasher
      ((Smt.insert natHasher (Smt.new natHasher) keyA valA).2) keyB valB).2)
    keyB).2

set_option maxRecDepth 100000 in
/-- Claim C3, evaluation at the failing input: in `preC3` the key `keyA`
already maps to `valA`, so re-inserting the same pair returns early
without recomputation; `get(keyA)` then returns `valA` but its proof
reads the stale right child at the depth-63 parent and fails to verify
against the current root. -/
theorem c3_insert_get_verify_code_bug :
    Reachable natHasher preC3 ∧
    valA ≠ EMPTY ∧
    (Smt.get natHasher ((Smt.insert natHasher preC3 keyA valA).2) keyA).1 = valA ∧
    SmtProof.verify natHasher
      (Smt.get natHasher ((Smt.insert natHasher preC3 keyA valA).2) keyA).2 keyA valA
      ((Smt.insert natHasher preC3 keyA valA).2).root = some false :=
  ⟨Reachable.rem keyB (Reachable.ins keyB valB (Reachable.ins keyA valA Reachable.new)),
    by decide, by decide, by decide⟩

set_option maxRecDepth 100000 in
/-- Claim C4, counterexample: from the reachable state where `keyA`
already maps to `valA`, inserting `keyA ↦ valB` and then removing `keyA`
does not restore the previous root: the remove deletes the key outright,
so the root returns to the empty-tree digest, not to the digest that
committed `keyA ↦ valA`. -/
theorem c4_insert_remove_counterexample :
    Reachable natHasher insState ∧ valB ≠ EMPTY ∧
    ((Smt.remove natHasher ((Smt.insert natHasher insState keyA valB).2) keyA).2).root ≠
      insState.root :=
  ⟨Reachable.ins keyA valA Reachable.new, by decide, by decide⟩

/-- One unfolding step of the recomputation loop, with the let bindings
expanded. -/
theorem recomputeLoop_succ (hf : Hasher D) (n v : Nat) (dg : D)
    (m : List ((Nat × Nat) × InnerNode D)) :
    recomputeLoop hf (n + 1) v dg m =
      recomputeLoop hf n (v / 2)
        (hf.hashPair
          (if v % 2 = 0 then dg else (getInnerNode hf m (n, v / 2)).left)
          (if v % 2 = 0 then (getInnerNode hf m (n, v / 2)).right else dg))
        (if hf.hashPair
              (if v % 2 = 0 then dg else (getInnerNode hf m (n, v / 2)).left)
              (if v % 2 = 0 then (getInnerNode hf m (n, v / 2)).right else dg) =
            entry hf n
          then alErase m (n, v / 2)
          else alInsert m (n, v / 2)
            ⟨if v % 2 = 0 then dg else (getInnerNode hf m (n, v / 2)).left,
              if v % 2 = 0 then (getInnerNode hf m (n, v / 2)).right else dg⟩) := rfl

/-- The loop never touches entries at depths at or above its starting
depth. -/
theorem recomputeLoop_frame (hf : Hasher D) :
    ∀ n v dg m (q : Nat × Nat), n ≤ q.1 →
      alLookup (recomputeLoop hf n v dg m).2 q = alLookup m q := by
  intro n
  induction n with
  | zero => intro v dg m q hq; rfl
  | succ n ih =>
    intro v dg m q hq
    rw [recomputeLoop_succ]
    rw [ih (v / 2) _ _ q (by omega)]
    have hne : q ≠ (n, v / 2) := by
      intro h
      have : n + 1 ≤ n := by rw [h] at hq; simpa using hq
      omega
    by_cases hcase : hf.hashPair
        (if v % 2 = 0 then dg else (getInnerNode hf m (n, v / 2)).left)
        (if v % 2 = 0 then (getInnerNode hf m (n, v / 2)).right else dg) = entry hf n
    · rw [if_pos hcase, alLookup_erase, if_neg hne]
    · rw [if_neg hcase, alLookup_insert, if_neg hne]

/-- Lookup in the map after the loop's delete-or-store step at one
position. -/
theorem stepMap_lookup (hf : Hasher D) (m : List ((Nat × Nat) × InnerNode D))
    (n v : Nat) (nh : D) (nd : InnerNode D) (q : Nat × Nat) :
    alLookup (if nh = entry hf n then alErase m (n, v) else alInsert m (n, v) nd) q =
      if q = (n, v) then (if nh = entry hf n then none else some nd)
      else alLookup m q := by
  by_cases hcase : nh = entry hf n
  · simp [hcase, alLookup_erase]
  · simp [hcase, alLookup_insert]

/-- The running digest of path recomputation meets, at each level, the
sibling digest the level's parent node shows: this is what a subsequent
recomputation along the same path reads. -/
def goodPath (hf : Hasher D) (m : List ((Nat × Nat) × InnerNode D)) : Nat → Nat → Prop
  | 0, _ => True
  | n + 1, v =>
      (if v % 2 = 0 then (getInnerNode hf m (n, v / 2)).right
        else (getInnerNode hf m (n, v / 2)).left) = entry hf (n + 1) ∧
      goodPath hf m n (v / 2)

theorem goodPath_congr (hf : Hasher D) :
    ∀ n v (m m' : List ((Nat × Nat) × InnerNode D)),
      (∀ q : Nat × Nat, q.1 < n → alLookup m' q = alLookup m q) →
      goodPath hf m n v → goodPath hf m' n v := by
  intro n
  induction n with
  | zero => intro v m m' hq hg; trivial
  | succ n ih =>
    intro v m m' hq hg
    obtain ⟨hside, hrest⟩ := hg
    refine ⟨?_, ih (v / 2) m m' (fun q hqd => hq q (by omega)) hrest⟩
    have hnode : getInnerNode hf m' (n, v / 2) = getInnerNode hf m (n, v / 2) := by
      unfold getInnerNode
      rw [hq (n, v / 2) (by omega)]
    rw [hnode]
    exact hside

/-- Running the loop from a digest equal to the empty-subtree entry of
its depth, along a path whose sibling reads are all the canonical empty
digests, yields the empty root. -/
theorem recomputeLoop_entry_root (hf : Hasher D) :
    ∀ n, n ≤ 64 → ∀ v m, goodPath hf m n v →
      (recomputeLoop hf n v (entry hf n) m).1 = entry hf 0 := by
  intro n
  induction n with
  | zero => intro _ v m _; rfl
  | succ n ih =>
    intro hn v m hg
    obtain ⟨hside, hrest⟩ := hg
    have hlt : n < 64 := by omega
    have hstep : hf.hashPair (entry hf (n + 1)) (entry hf (n + 1)) = entry hf n :=
      (entry_succ hf hlt).symm
    have herase : ∀ q : Nat × Nat, q.1 < n →
        alLookup (alErase m (n, v / 2)) q = alLookup m q := by
      intro q hq
      rw [alLookup_erase, if_neg]
      intro hc
      rw [hc] at hq
      exact Nat.lt_irrefl n (by simpa using hq)
    rw [recomputeLoop_succ]
    by_cases hpar : v % 2 = 0
    · rw [if_pos hpar] at hside
      have hdg : hf.hashPair
          (if v % 2 = 0 then entry hf (n + 1) else (getInnerNode hf m (n, v / 2)).left)
          (if v % 2 = 0 then (getInnerNode hf m (n, v / 2)).right else entry hf (n + 1)) =
          entry hf n := by
        rw [if_pos hpar, if_pos hpar, hside]
        exact hstep
      rw [hdg, if_pos rfl]
      exact ih (by omega) (v / 2) _ (goodPath_congr hf n (v / 2) m _ herase hrest)
    · rw [if_neg hpar] at hside
      have hdg : hf.hashPair
          (if v % 2 = 0 then entry hf (n + 1) else (getInnerNode hf m (n, v / 2)).left)
          (if v % 2 = 0 then (getInnerNode hf m (n, v / 2)).right else entry hf (n + 1)) =
          entry hf n := by
        rw [if_neg hpar, if_neg hpar, hside]
        exact hstep
      rw [hdg, if_pos rfl]
      exact ih (by omega) (v / 2) _ (goodPath_congr hf n (v / 2) m _ herase hrest)

/-- Running the loop over a map with no entries below the starting depth
leaves, along the recomputed path, sibling reads that are all the
canonical empty digests: every stored pair keeps the default sibling it
was combined with. -/
theorem recomputeLoop_good (hf : Hasher D) :
    ∀ n, n ≤ 64 → ∀ v dg m,
      (∀ d w : Nat, d < n → alLookup m (d, w) = none) →
      goodPath hf (recomputeLoop hf n v dg m).2 n v := by
  intro n
  induction n with
  | zero => intro _ v dg m _; trivial
  | succ n ih =>
    intro hn v dg m hnone
    have hnode : getInnerNode hf m (n, v / 2) =
        ⟨entry hf (n + 1), entry hf (n + 1)⟩ := by
      unfold getInnerNode
      rw [hnone n (v / 2) (by omega)]
      rfl
    rw [recomputeLoop_succ, hnode]
    have hstep : ∀ d w : Nat, d < n →
        alLookup (if hf.hashPair (if v % 2 = 0 then dg else entry hf (n + 1))
              (if v % 2 = 0 then entry hf (n + 1) else dg) = entry hf n
            then alErase m (n, v / 2)
            else alInsert m (n, v / 2)
              ⟨if v % 2 = 0 then dg else entry hf (n + 1),
                if v % 2 = 0 then entry hf (n + 1) else dg⟩) (d, w) = none := by
      intro d w hd
      rw [stepMap_lookup, if_neg, hnone d w (by omega)]
      intro hc
      have : d = n := (Prod.mk.injEq d w n (v / 2) ▸ hc).1
      omega
    refine ⟨?_, ih (by omega) (v / 2) _ _ hstep⟩
    unfold getInnerNode
    rw [recomputeLoop_frame hf n (v / 2) _ _ (n, v / 2) (le_refl n)]
    rw [stepMap_lookup, if_pos rfl]
    by_cases hcase : hf.hashPair (if v % 2 = 0 then dg else entry hf (n + 1))
        (if v % 2 = 0 then entry hf (n + 1) else dg) = entry hf n
    · rw [if_pos hcase]
      by_cases hpar : v % 2 = 0 <;> simp [hpar]
    · rw [if_neg hcase]
      by_cases hpar : v % 2 = 0 <;> simp [hpar]

/-- The `None` branch of `recompute_nodes_from_leaf_to_root` produces the
empty-tree root whenever the inner map's sibling reads along the path are
all canonical empty digests. -/
theorem recompute_none_root (hf : Hasher D) (s : Smt D) (i : Nat)
    (hg : goodPath hf s.inner 64 i) :
    (recompute_nodes_from_leaf_to_root hf s i none).root = entry hf 0 := by
  obtain ⟨hside, hrest⟩ := hg
  simp only [recompute_nodes_from_leaf_to_root]
  rw [show LEAF_DEPTH - 1 = 63 from rfl]
  have hstep : hf.hashPair (entry hf 64) (entry hf 64) = entry hf 63 :=
    (entry_succ hf (by omega)).symm
  by_cases hpar : i % 2 = 0
  · rw [if_pos hpar] at hside
    rw [if_pos hpar, if_pos hpar, hside]
    rw [show hf.hashPair hf.zero (entry hf 64) = entry hf 63 from hstep]
    exact recomputeLoop_entry_root hf 63 (by omega) (i / 2) s.inner hrest
  · rw [if_neg hpar] at hside
    rw [if_neg hpar, if_neg hpar, hside]
    rw [show hf.hashPair (entry hf 64) hf.zero = entry hf 63 from hstep]
    exact recomputeLoop_entry_root hf 63 (by omega) (i / 2) s.inner hrest

/-- Projection of the `Some` branch of path recomputation. -/
theorem recompute_some_inner (hf : Hasher D) (s : Smt D) (i : Nat) (dg : D) :
    (recompute_nodes_from_leaf_to_root hf s i (some dg)).inner =
      (recomputeLoop hf LEAF_DEPTH i dg s.inner).2 := rfl

/-- Claim C4 (amended): starting from the freshly created tree, inserting
a well-formed key with a non-EMPTY value and then removing it restores
the root digest bit-for-bit, for any hasher. -/
theorem c4_insert_remove_fresh (hf : Hasher D) (k : Key) (v : Value)
    (hk : k.length = 8) (hv : v ≠ EMPTY) :
    ((Smt.remove hf ((Smt.insert hf (Smt.new hf) k v).2) k).2).root =
      (Smt.new hf).root := by
  have hknil : k ≠ [] := by intro h; rw [h] at hk; simp at hk
  have hvne : ¬(EMPTY = v) := fun h => hv h.symm
  have hwords : SmtLeaf.hash hf ⟨key_to_leaf_index k, [(k, v)]⟩ =
      some (hf.hashWords (k ++ v)) := by
    cases k with
    | nil => exact absurd rfl hknil
    | cons a t => simp [SmtLeaf.hash]
  have hins : (Smt.insert hf (Smt.new hf) k v).2 =
      recompute_nodes_from_leaf_to_root hf
        ⟨(Smt.new hf).root, [(key_to_leaf_index k, ⟨key_to_leaf_index k, [(k, v)]⟩)], []⟩
        (key_to_leaf_index k) (some (hf.hashWords (k ++ v))) := by
    unfold Smt.insert
    rw [if_neg hv]
    simp [Smt.new, SmtLeaf.insert, SmtLeaf.new, kvsGet, kvsInsert, alLookup,
      alInsert, hvne, hwords]
  have hlk : alLookup ((Smt.insert hf (Smt.new hf) k v).2).leaves
      (key_to_leaf_index k) = some ⟨key_to_leaf_index k, [(k, v)]⟩ := by
    rw [hins, recompute_leaves]
    simp [alLookup]
  have hr : SmtLeaf.remove ⟨key_to_leaf_index k, [(k, v)]⟩ k =
      (some v, ⟨key_to_leaf_index k, []⟩) := by
    simp [SmtLeaf.remove, kvsRemove]
  have hrem : (Smt.remove hf ((Smt.insert hf (Smt.new hf) k v).2) k).2 =
      recompute_nodes_from_leaf_to_root hf
        { (Smt.insert hf (Smt.new hf) k v).2 with
            leaves := alInsert ((Smt.insert hf (Smt.new hf) k v).2).leaves
              (key_to_leaf_index k) ⟨key_to_leaf_index k, []⟩ }
        (key_to_leaf_index k) none := by
    unfold Smt.remove
    simp only [hlk, hr]
    simp [SmtLeaf.hash]
  have hinner : ((Smt.insert hf (Smt.new hf) k v).2).inner =
      (recomputeLoop hf 64 (key_to_leaf_index k) (hf.hashWords (k ++ v)) []).2 := by
    rw [hins, recompute_some_inner]
    rw [show (LEAF_DEPTH : Nat) = 64 from rfl]
  have hgood : goodPath hf ((Smt.insert hf (Smt.new hf) k v).2).inner 64
      (key_to_leaf_index k) := by
    rw [hinner]
    exact recomputeLoop_good hf 64 (by omega) (key_to_leaf_index k) _ []
      (fun d w hd => rfl)
  rw [hrem]
  rw [recompute_none_root hf
      ({ (Smt.insert hf (Smt.new hf) k v).2 with
          leaves := alInsert ((Smt.insert hf (Smt.new hf) k v).2).leaves
            (key_to_leaf_index k) ⟨key_to_leaf_index k, []⟩ })
      (key_to_leaf_index k) hgood]
  rfl

set_option maxRecDepth 10000 in
theorem c4_insert_remove_fresh_witness :
    (keyA.length = 8 ∧ valA ≠ EMPTY) ∧
    ((Smt.remove natHasher
        ((Smt.insert natHasher (Smt.new natHasher) keyA valA).2) keyA).2).root =
      (Smt.new natHasher).root :=
  ⟨⟨by decide, by decide⟩,
    c4_insert_remove_fresh natHasher keyA valA (by decide) (by decide)⟩

theorem bool_eq_false {b : Bool} (h : ¬(b = true)) : b = false := by
  cases b
  · rfl
  · exact absurd rfl h

theorem keyLt_irrefl : ∀ k, keyLt k k = false := by
  intro k
  induction k with
  | nil => rfl
  | cons a t ih => simp [keyLt, ih]

theorem keyLt_asymm : ∀ k1 k2, keyLt k1 k2 = true → keyLt k2 k1 = false := by
  intro k1
  induction k1 with
  | nil =>
    intro k2 h
    cases k2 with
    | nil => simp [keyLt] at h
    | cons b bs => rfl
  | cons a as ih =>
    intro k2 h
    cases k2 with
    | nil => simp [keyLt] at h
    | cons b bs =>
      by_cases hab : a < b
      · have h1 : ¬(b < a) := by omega
        have h2 : ¬(b = a) := by omega
        simp [keyLt, h1, h2]
      · by_cases heq : a = b
        · subst heq
          simp only [keyLt, if_neg hab, if_pos rfl] at h
          simp [keyLt, ih bs h]
        · simp [keyLt, hab, heq] at h

theorem keyLt_total : ∀ k1 k2 : List Nat, k1 ≠ k2 →
    keyLt k1 k2 = true ∨ keyLt k2 k1 = true := by
  intro k1
  induction k1 with
  | nil =>
    intro k2 hne
    cases k2 with
    | nil => exact absurd rfl hne
    | cons b bs => left; rfl
  | cons a as ih =>
    intro k2 hne
    cases k2 with
    | nil => right; rfl
    | cons b bs =>
      by_cases hab : a < b
      · left; simp [keyLt, hab]
      · by_cases heq : a = b
        · subst heq
          have hne' : as ≠ bs := by
            intro h
            exact hne (by rw [h])
          rcases ih bs hne' with h | h
          · left; simp [keyLt, h]
          · right; simp [keyLt, h]
        · have hba : b < a := by omega
          right
          simp [keyLt, hba]

theorem keyLt_trans : ∀ k1 k2 k3, keyLt k1 k2 = true → keyLt k2 k3 = true →
    keyLt k1 k3 = true := by
  intro k1
  induction k1 with
  | nil =>
    intro k2 k3 h12 h23
    cases k2 with
    | nil => simp [keyLt] at h12
    | cons b bs =>
      cases k3 with
      | nil => simp [keyLt] at h23
      | cons c cs => rfl
  | cons a as ih =>
    intro k2 k3 h12 h23
    cases k2 with
    | nil => simp [keyLt] at h12
    | cons b bs =>
      cases k3 with
      | nil => simp [keyLt] at h23
      | cons c cs =>
        by_cases hab : a < b
        · by_cases hbc : b < c
          · simp [keyLt, show a < c by omega]
          · by_cases hbc2 : b = c
            · subst hbc2
              simp [keyLt, hab]
            · simp [keyLt, hbc, hbc2] at h23
        · by_cases hab2 : a = b
          · subst hab2
            simp only [keyLt, if_neg hab, if_pos rfl] at h12
            by_cases hbc : a < c
            · simp [keyLt, hbc]
            · by_cases hbc2 : a = c
              · subst hbc2
                simp only [keyLt, if_neg hbc, if_pos rfl] at h23 ⊢
                exact ih bs cs h12 h23
              · simp [keyLt, hbc, hbc2] at h23
          · simp [keyLt, hab, hab2] at h12

theorem kvsInsert_comm (k1 k2 : Key) (v1 v2 : Value) (hne : k1 ≠ k2) :
    ∀ l, kvsInsert (kvsInsert l k1 v1) k2 v2 = kvsInsert (kvsInsert l k2 v2) k1 v1 := by
  have hne' : k2 ≠ k1 := fun h => hne h.symm
  intro l
  induction l with
  | nil =>
    rcases keyLt_total k1 k2 hne with h12 | h21
    · have h21f : keyLt k2 k1 = false := keyLt_asymm _ _ h12
      simp [kvsInsert, h12, h21f, hne, hne']
    · have h12f : keyLt k1 k2 = false := keyLt_asymm _ _ h21
      simp [kvsInsert, h21, h12f, hne, hne']
  | cons hd tl ih =>
    obtain ⟨kh, vh⟩ := hd
    by_cases h1h : keyLt k1 kh = true
    · by_cases h2h : keyLt k2 kh = true
      · rcases keyLt_total k1 k2 hne with h12 | h21
        · have h21f : keyLt k2 k1 = false := keyLt_asymm _ _ h12
          simp [kvsInsert, h1h, h2h, h12, h21f, hne, hne']
        · have h12f : keyLt k1 k2 = false := keyLt_asymm _ _ h21
          simp [kvsInsert, h1h, h2h, h21, h12f, hne, hne']
      · by_cases h2e : k2 = kh
        · subst h2e
          have h21f : keyLt k2 k1 = false := keyLt_asymm _ _ h1h
          simp [kvsInsert, h1h, h21f, hne, hne', keyLt_irrefl]
        · have h2hf : keyLt k2 kh = false := bool_eq_false h2h
          have h21f : keyLt k2 k1 = false := by
            cases hkk : keyLt k2 k1
            · rfl
            · have := keyLt_trans _ _ _ hkk h1h
              rw [h2hf] at this
              exact absurd this (by simp)
          simp [kvsInsert, h1h, h2hf, h2e, h21f, hne']
    · by_cases h1e : k1 = kh
      · subst h1e
        by_cases h2h : keyLt k2 k1 = true
        · have h12f : keyLt k1 k2 = false := keyLt_asymm _ _ h2h
          simp [kvsInsert, keyLt_irrefl, h2h, h12f, hne, hne']
        · have h2hf : keyLt k2 k1 = false := bool_eq_false h2h
          rcases keyLt_total k1 k2 hne with h12 | h21
          · simp [kvsInsert, keyLt_irrefl, h12, h2hf, hne, hne']
          · rw [h2hf] at h21
            exact absurd h21 (by simp)
      · have h1hf : keyLt k1 kh = false := bool_eq_false h1h
        by_cases h2h : keyLt k2 kh = true
        · have h12f : keyLt k1 k2 = false := by
            cases hkk : keyLt k1 k2
            · rfl
            · have := keyLt_trans _ _ _ hkk h2h
              rw [h1hf] at this
              exact absurd this (by simp)
          simp [kvsInsert, h1hf, h1e, h2h, h12f, hne]
        · by_cases h2e : k2 = kh
          · subst h2e
            simp [kvsInsert, h1hf, h1e, keyLt_irrefl, hne, hne']
          · have h2hf : keyLt k2 kh = false := bool_eq_false h2h
            simp [kvsInsert, h1hf, h1e, h2hf, h2e, ih]

theorem kvsInsert_mem (k : Key) (v : Value) :
    ∀ l p, p ∈ kvsInsert l k v → p = (k, v) ∨ p ∈ l := by
  intro l
  induction l with
  | nil =>
    intro p hp
    simp [kvsInsert] at hp
    left
    exact hp
  | cons hd tl ih =>
    obtain ⟨kh, vh⟩ := hd
    intro p hp
    by_cases h1 : keyLt k kh = true
    · simp only [kvsInsert, h1, if_true] at hp
      rcases List.mem_cons.mp hp with rfl | hp'
      · left; rfl
      · right; exact hp'
    · have h1f : keyLt k kh = false := bool_eq_false h1
      by_cases h2 : k = kh
      · subst h2
        simp only [kvsInsert, keyLt_irrefl, if_pos rfl] at hp
        simp at hp
        rcases hp with rfl | hp'
        · left; rfl
        · right; simp [hp']
      · simp only [kvsInsert, h1f, h2, if_neg, if_false] at hp
        simp at hp
        rcases hp with rfl | hp'
        · right; simp
        · rcases ih p hp' with rfl | hmem
          · left; rfl
          · right; simp [hmem]

theorem kvsInsert_sorted (k : Key) (v : Value) :
    ∀ l, List.Pairwise (fun p q : Key × Value => keyLt p.1 q.1 = true) l →
      List.Pairwise (fun p q : Key × Value => keyLt p.1 q.1 = true) (kvsInsert l k v) := by
  intro l
  induction l with
  | nil => intro _; simp [kvsInsert]
  | cons hd tl ih =>
    obtain ⟨kh, vh⟩ := hd
    intro hp
    rw [List.pairwise_cons] at hp
    obtain ⟨hhead, htl⟩ := hp
    by_cases h1 : keyLt k kh = true
    · simp only [kvsInsert, h1, if_true]
      refine List.Pairwise.cons ?_ (List.Pairwise.cons hhead htl)
      intro p hp'
      rcases List.mem_cons.mp hp' with rfl | hmem
      · exact h1
      · exact keyLt_trans _ _ _ h1 (hhead p hmem)
    · have h1f : keyLt k kh = false := bool_eq_false h1
      by_cases h2 : k = kh
      · subst h2
        simp only [kvsInsert, keyLt_irrefl, if_pos rfl]
        exact List.Pairwise.cons (fun p hp' => hhead p hp') htl
      · have hkh : keyLt kh k = true := by
          rcases keyLt_total k kh h2 with h | h
          · rw [h1f] at h
            exact absurd h (by simp)
          · exact h
        simp only [kvsInsert, h1f, h2, if_neg, if_false]
        simp only [show ((false = true) = False) from by simp, if_false]
        refine List.Pairwise.cons ?_ (ih htl)
        intro p hp'
        rcases kvsInsert_mem k v tl p hp' with rfl | hmem
        · exact hkh
        · exact hhead p hmem

theorem foldl_leafStep_sorted :
    ∀ (ps : List (Key × Value)) (lf : SmtLeaf),
      List.Pairwise (fun p q : Key × Value => keyLt p.1 q.1 = true) lf.kvs →
      List.Pairwise (fun p q : Key × Value => keyLt p.1 q.1 = true)
        (ps.foldl leafStep lf).kvs := by
  intro ps
  induction ps with
  | nil => intro lf h; exact h
  | cons p pt ih =>
    intro lf h
    exact ih (leafStep lf p) (kvsInsert_sorted p.1 p.2 lf.kvs h)

theorem foldl_leafStep_perm :
    ∀ {ps qs : List (Key × Value)}, ps.Perm qs → (ps.map Prod.fst).Nodup →
      ∀ lf, ps.foldl leafStep lf = qs.foldl leafStep lf := by
  intro ps qs hperm
  induction hperm with
  | nil => intro _ lf; rfl
  | cons x hperm ih =>
    intro hnd lf
    simp only [List.foldl_cons]
    refine ih ?_ (leafStep lf x)
    rw [List.map_cons, List.nodup_cons] at hnd
    exact hnd.2
  | swap x y l =>
    intro hnd lf
    simp only [List.foldl_cons]
    have hxy : x.1 ≠ y.1 := by
      rw [List.map_cons, List.map_cons, List.nodup_cons] at hnd
      intro h
      exact hnd.1 (by rw [← h]; exact List.mem_cons_self _ _)
    have hcomm : leafStep (leafStep lf y) x = leafStep (leafStep lf x) y :=
      congrArg (SmtLeaf.mk lf.index)
        (kvsInsert_comm y.1 x.1 y.2 x.2 (fun h => hxy h.symm) lf.kvs)
    rw [hcomm]
  | trans h1 h2 ih1 ih2 =>
    intro hnd lf
    rw [ih1 hnd lf]
    exact ih2 ((h1.map Prod.fst).nodup_iff.mp hnd) lf

/-- Claim C8: a leaf bucket's hash is `None` exactly when the bucket is
empty (for well-formed 8-word keys); buckets built by inserts keep their
pairs in strictly ascending key order, so the hashed word sequence
concatenates key and value words in that order; and inserting a fixed set
of distinct colliding keys in any permutation order yields the same leaf,
hence the same hash. -/
theorem c8_leaf_hash_order (hf : Hasher D) :
    (∀ leaf : SmtLeaf, (∀ p ∈ leaf.kvs, (p.1 : List Nat).length = 8) →
      (SmtLeaf.hash hf leaf = none ↔ leaf.kvs = [])) ∧
    (∀ (idx : Nat) (ps : List (Key × Value)),
      List.Pairwise (fun p q : Key × Value => keyLt p.1 q.1 = true)
        (buildLeaf idx ps).kvs) ∧
    (∀ (idx : Nat) (ps qs : List (Key × Value)), ps.Perm qs →
      (ps.map Prod.fst).Nodup →
      SmtLeaf.hash hf (buildLeaf idx ps) = SmtLeaf.hash hf (buildLeaf idx qs)) := by
  refine ⟨?_, ?_, ?_⟩
  · intro leaf hlen
    obtain ⟨idx0, kvs0⟩ := leaf
    cases kvs0 with
    | nil => simp [SmtLeaf.hash]
    | cons p rest =>
      have hp8 : p.1.length = 8 := hlen p (List.mem_cons_self _ _)
      cases hk : p.1 with
      | nil => rw [hk] at hp8; simp at hp8
      | cons a t =>
        obtain ⟨pk, pv⟩ := p
        simp at hk
        subst hk
        simp [SmtLeaf.hash]
  · intro idx ps
    exact foldl_leafStep_sorted ps (SmtLeaf.new idx) List.Pairwise.nil
  · intro idx ps qs hperm hnd
    unfold buildLeaf
    rw [foldl_leafStep_perm hperm hnd]

theorem c8_leaf_hash_order_witness :
    ((∀ p ∈ (SmtLeaf.mk 0 [(List.replicate 8 0, [1, 0, 0, 0, 0, 0, 0, 0])]).kvs,
        (p.1 : List Nat).length = 8) ∧
      (SmtLeaf.hash natHasher
          (SmtLeaf.mk 0 [(List.replicate 8 0, [1, 0, 0, 0, 0, 0, 0, 0])]) = none ↔
        (SmtLeaf.mk 0 [(List.replicate 8 0, [1, 0, 0, 0, 0, 0, 0, 0])]).kvs = [])) ∧
    List.Pairwise (fun p q : Key × Value => keyLt p.1 q.1 = true)
      (buildLeaf 0 [([0, 0, 0, 0, 0, 0, 0, 0], [1, 0, 0, 0, 0, 0, 0, 0]),
        ([1, 0, 0, 0, 0, 0, 0, 0], [2, 0, 0, 0, 0, 0, 0, 0])]).kvs ∧
    (([([0, 0, 0, 0, 0, 0, 0, 0], [1, 0, 0, 0, 0, 0, 0, 0]),
        ([1, 0, 0, 0, 0, 0, 0, 0], [2, 0, 0, 0, 0, 0, 0, 0])] :
          List (Key × Value)).Perm
        [([1, 0, 0, 0, 0, 0, 0, 0], [2, 0, 0, 0, 0, 0, 0, 0]),
          ([0, 0, 0, 0, 0, 0, 0, 0], [1, 0, 0, 0, 0, 0, 0, 0])] ∧
      (([([0, 0, 0, 0, 0, 0, 0, 0], [1, 0, 0, 0, 0, 0, 0, 0]),
          ([1, 0, 0, 0, 0, 0, 0, 0], [2, 0, 0, 0, 0, 0, 0, 0])] :
            List (Key × Value)).map Prod.fst).Nodup ∧
      SmtLeaf.hash natHasher
          (buildLeaf 0 [([0, 0, 0, 0, 0, 0, 0, 0], [1, 0, 0, 0, 0, 0, 0, 0]),
            ([1, 0, 0, 0, 0, 0, 0, 0], [2, 0, 0, 0, 0, 0, 0, 0])]) =
        SmtLeaf.hash natHasher
          (buildLeaf 0 [([1, 0, 0, 0, 0, 0, 0, 0], [2, 0, 0, 0, 0, 0, 0, 0]),
            ([0, 0, 0, 0, 0, 0, 0, 0], [1, 0, 0, 0, 0, 0, 0, 0])])) :=
  ⟨⟨by decide, (c8_leaf_hash_order natHasher).1
      (SmtLeaf.mk 0 [(List.replicate 8 0, [1, 0, 0, 0, 0, 0, 0, 0])]) (by decide)⟩,
    (c8_leaf_hash_order natHasher).2.1 0
      [([0, 0, 0, 0, 0, 0, 0, 0], [1, 0, 0, 0, 0, 0, 0, 0]),
        ([1, 0, 0, 0, 0, 0, 0, 0], [2, 0, 0, 0, 0, 0, 0, 0])],
    by decide, by decide,
    (c8_leaf_hash_order natHasher).2.2 0
      [([0, 0, 0, 0, 0, 0, 0, 0], [1, 0, 0, 0, 0, 0, 0, 0]),
        ([1, 0, 0, 0, 0, 0, 0, 0], [2, 0, 0, 0, 0, 0, 0, 0])]
      [([1, 0, 0, 0, 0, 0, 0, 0], [2, 0, 0, 0, 0, 0, 0, 0]),
        ([0, 0, 0, 0, 0, 0, 0, 0], [1, 0, 0, 0, 0, 0, 0, 0])]
      (by decide) (by decide)⟩

end SmtSpec
